import Mathlib

/-!
Shallow embedding of `src/dependency_resolver.py` (class `DependencyResolver`):
the data model (`DependencyRequirement`, `ConflictInfo`), the conflict
detection algorithm (`detect_conflicts`), requirement scanning
(`parse_requirements`, `scan_plugins`, `check_conflicts`) and the bulk
rewriter (`replace_dependency`).

The program delegates version/requirement parsing to the external
`packaging` library.  That library is not part of the repository, so the
pieces of its behaviour the program relies on are modelled from the spec
(sections 4.1, 4.2 and 6 of `spec.md`): versions are lists of numeric
release segments compared element-wise with missing trailing segments
treated as zero, and a manifest line is `<name>[<clause>[,<clause>...]]`
with clause operators `==`, `!=`, `>=`, `<=`, `>`, `<`, `~=`.
Each such modelled definition carries a doc comment saying so.
-/

set_option maxHeartbeats 1000000

/-- The seven clause operators supported by the manifest syntax (spec section 6). -/
inductive Op where
  | eq
  | ne
  | ge
  | le
  | gt
  | lt
  | compat
  deriving DecidableEq, Repr

/-- One comparison clause: an operator plus the raw version text
(`packaging.specifiers.Specifier` keeps the version as written). -/
structure Clause where
  op : Op
  ver : String
  deriving DecidableEq, Repr

/-- `DependencyRequirement` from `src/dependency_resolver.py` (lines 46-55):
name (stored lowercased by `parse_requirements`), specifier clause list,
original line text, owning plugin. -/
structure DependencyRequirement where
  name : String
  specifier : List Clause
  original_line : String
  plugin_name : String
  deriving DecidableEq, Repr

/-- `ConflictInfo` from `src/dependency_resolver.py` (lines 57-61). -/
structure ConflictInfo where
  dependency_name : String
  conflicting_plugins : List (String × String)
  deriving DecidableEq, Repr

/-- Modelled from the spec: ASCII lowercasing as performed by Python's
`str.lower()` on the identifiers in play (`req.name.lower()`), character level. -/
def lowerChar (c : Char) : Char :=
  match c with
  | 'A' => 'a'
  | 'B' => 'b'
  | 'C' => 'c'
  | 'D' => 'd'
  | 'E' => 'e'
  | 'F' => 'f'
  | 'G' => 'g'
  | 'H' => 'h'
  | 'I' => 'i'
  | 'J' => 'j'
  | 'K' => 'k'
  | 'L' => 'l'
  | 'M' => 'm'
  | 'N' => 'n'
  | 'O' => 'o'
  | 'P' => 'p'
  | 'Q' => 'q'
  | 'R' => 'r'
  | 'S' => 's'
  | 'T' => 't'
  | 'U' => 'u'
  | 'V' => 'v'
  | 'W' => 'w'
  | 'X' => 'x'
  | 'Y' => 'y'
  | 'Z' => 'z'
  | c => c

/-- Python `s.lower()` on a Lean string (ASCII). -/
def lowerStr (s : String) : String := String.mk (s.data.map lowerChar)

/-- Whitespace stripped by Python's `str.strip()`. -/
def isSpaceChar (c : Char) : Bool :=
  c == ' ' || c == '\t' || c == '\n' || c == '\r' || c == '\x0c' || c == '\x0b'

/-- Python `str.strip()` on a character list. -/
def trimChars (cs : List Char) : List Char :=
  ((cs.dropWhile isSpaceChar).reverse.dropWhile isSpaceChar).reverse

/-- Python `str.strip()` on a Lean string. -/
def trimS (s : String) : String := String.mk (trimChars s.data)

/-- Modelled from the spec: characters allowed in a dependency name
(PEP 508 names as accepted by `packaging.requirements.Requirement`):
letters, digits, `-`, `_`, `.`. -/
def isNameChar (c : Char) : Bool :=
  c.isAlphanum || c == '-' || c == '_' || c == '.'

/-- Split a character list on a separator character (like Python `str.split(sep)`). -/
def splitOnChar (sep : Char) : List Char → List (List Char)
  | [] => [[]]
  | c :: rest =>
    let r := splitOnChar sep rest
    if c == sep then [] :: r
    else
      match r with
      | [] => [[c]]
      | h :: t => (c :: h) :: t

/-- Parse a nonempty all-digit character list as a natural number. -/
def parseNatChars (cs : List Char) : Option Nat :=
  if cs.isEmpty then none
  else if cs.all Char.isDigit then
    some (cs.foldl (fun a c => a * 10 + (c.toNat - 48)) 0)
  else none

/-- Modelled from the spec (section 4.1): `packaging.version.parse` restricted
to the numeric-release-segment versions the spec describes — split on `.`
into numeric segments; unparsable input fails. -/
def parseVersionChars (cs : List Char) : Option (List Nat) :=
  (splitOnChar '.' cs).mapM parseNatChars

/-- The version value a clause's text denotes, as used inside
`detect_conflicts` via `packaging.version.parse` (defaults never fire on
clauses produced by the parser, whose version texts are checked). -/
def pv (s : String) : List Nat := (parseVersionChars s.data).getD []

/-- Is every segment zero? -/
def isZeros : List Nat → Bool
  | [] => true
  | n :: ns => n == 0 && isZeros ns

/-- Modelled from the spec (section 4.1): comparison of release-segment lists,
element-wise, missing trailing segments treated as zero — the order
`packaging.version.Version` gives the versions in play. -/
def verCmp : List Nat → List Nat → Ordering
  | [], b => if isZeros b then .eq else .lt
  | a, [] => if isZeros a then .eq else .gt
  | x :: xs, y :: ys =>
    if x < y then .lt else if y < x then .gt else verCmp xs ys

/-- Strictly-greater test on version values (`parse(x) > parse(y)`). -/
def vGTb (a b : List Nat) : Bool := verCmp a b == .gt

/-- Strictly-less test on version values (`parse(x) < parse(y)`). -/
def vLTb (a b : List Nat) : Bool := verCmp a b == .lt

/-- Equality test on version values (`parse(x) == parse(y)`). -/
def vEQb (a b : List Nat) : Bool := verCmp a b == .eq

/-- Non-strict order on version values, as a proposition. -/
def vLE (a b : List Nat) : Prop := verCmp a b ≠ .gt

instance (a b : List Nat) : Decidable (vLE a b) := by
  unfold vLE; infer_instance

/-- Operator rendering, as `packaging` renders a specifier's operator. -/
def opStr : Op → String
  | .eq => "=="
  | .ne => "!="
  | .ge => ">="
  | .le => "<="
  | .gt => ">"
  | .lt => "<"
  | .compat => "~="

/-- Rendering of one clause (`str(Specifier)`): operator text followed by
the version text as written. -/
def renderClause (c : Clause) : String := opStr c.op ++ c.ver

/-- Modelled from the spec: `str(SpecifierSet)` — the clauses joined by `,`.
(The model keeps declaration order; every rendering the claims compare is a
single-clause specifier, where no ordering question arises.) -/
def renderSpec (cs : List Clause) : String :=
  String.intercalate "," (cs.map renderClause)

/-- Parse a leading comparison operator from clause text. -/
def parseOpChars : List Char → Option (Op × List Char)
  | '=' :: '=' :: rest => some (.eq, rest)
  | '!' :: '=' :: rest => some (.ne, rest)
  | '>' :: '=' :: rest => some (.ge, rest)
  | '<' :: '=' :: rest => some (.le, rest)
  | '~' :: '=' :: rest => some (.compat, rest)
  | '>' :: rest => some (.gt, rest)
  | '<' :: rest => some (.lt, rest)
  | _ => none

/-- Modelled from the spec (section 6): parse one comma-separated clause —
an operator followed by a version string (whitespace tolerated around the
pieces, as `packaging` tolerates it). -/
def parseClauseChars (cs : List Char) : Option Clause := do
  let t := trimChars cs
  let (o, rest) ← parseOpChars t
  let vtxt := trimChars rest
  let _ ← parseVersionChars vtxt
  pure ⟨o, String.mk vtxt⟩

/-- A parsed manifest line before the resolver wraps it: raw (not yet
lowercased) name plus clause list. -/
structure ParsedReq where
  name : String
  clauses : List Clause
  deriving DecidableEq, Repr

/-- Modelled from the spec (sections 4.2 and 6):
`packaging.requirements.Requirement` on one manifest line
`<name>[<clause>[,<clause>...]]` — a nonempty name of name-characters,
then zero or more comma-separated clauses; any failure yields `none`. -/
def parseLine (cs : List Char) : Option ParsedReq :=
  let nameCs := cs.takeWhile isNameChar
  let rest := cs.dropWhile isNameChar
  if nameCs.isEmpty then none
  else if rest.isEmpty then some ⟨String.mk nameCs, []⟩
  else ((splitOnChar ',' rest).mapM parseClauseChars).map fun cls =>
    ⟨String.mk nameCs, cls⟩

/-- Python-dict lookup in an insertion-ordered association list. -/
def assocFind {α : Type} (k : String) : List (String × α) → Option α
  | [] => none
  | (k2, v) :: rest => if k2 == k then some v else assocFind k rest

/-- Python-dict assignment: replace in place when the key is present,
append at the end when absent (dicts preserve insertion order). -/
def assocSet {α : Type} (k : String) (v : α) : List (String × α) → List (String × α)
  | [] => [(k, v)]
  | (k2, v2) :: rest =>
    if k2 == k then (k2, v) :: rest else (k2, v2) :: assocSet k v rest

/-- Operators collected as lower bounds by `detect_conflicts` (line 183):
`('>=', '==', '>')`. -/
def isLowerOp (o : Op) : Bool := o == .ge || o == .eq || o == .gt

/-- Operators collected as upper bounds by `detect_conflicts` (line 195):
`('<=', '==', '<')`. -/
def isUpperOp (o : Op) : Bool := o == .le || o == .eq || o == .lt

/-- One clause's effect on a per-plugin bound map (`detect_conflicts`
lines 182-189 and 194-201): first clause for a plugin is stored; a later
clause replaces it only when `better` (strictly greater for the min map,
strictly less for the max map) holds of the version values. -/
def boundStep (sidePred : Op → Bool) (better : String → String → Bool)
    (p : String) (m : List (String × String × Op)) (c : Clause) :
    List (String × String × Op) :=
  if sidePred c.op then
    match assocFind p m with
    | none => assocSet p (c.ver, c.op) m
    | some cur => if better c.ver cur.1 then assocSet p (c.ver, c.op) m else m
  else m

/-- The per-plugin bound maps of `detect_conflicts`: fold over all
requirements of a group, then over each requirement's clauses. -/
def collectBounds (sidePred : Op → Bool) (better : String → String → Bool)
    (reqs : List DependencyRequirement) : List (String × String × Op) :=
  reqs.foldl (fun m r => r.specifier.foldl (boundStep sidePred better r.plugin_name) m) []

/-- `parse(spec.version) > parse(current_ver)` (line 188). -/
def minBetter (nv cv : String) : Bool := vGTb (pv nv) (pv cv)

/-- `parse(spec.version) < parse(current_ver)` (line 200). -/
def maxBetter (nv cv : String) : Bool := vLTb (pv nv) (pv cv)

/-- `min_versions` of `detect_conflicts` (lines 179-189). -/
def computeMinVersions (reqs : List DependencyRequirement) : List (String × String × Op) :=
  collectBounds isLowerOp minBetter reqs

/-- `max_versions` of `detect_conflicts` (lines 191-201). -/
def computeMaxVersions (reqs : List DependencyRequirement) : List (String × String × Op) :=
  collectBounds isUpperOp maxBetter reqs

/-- The pairwise infeasibility test of `detect_conflicts` (line 214):
`min_version > max_version or (min_version == max_version and (min_op == '>' or max_op == '<'))`. -/
def pairBad (mn mx : String × Op) : Bool :=
  vGTb (pv mn.1) (pv mx.1) ||
    (vEQb (pv mn.1) (pv mx.1) && (mn.2 == Op.gt || mx.2 == Op.lt))

/-- The rendered-range string used in a conflict record (lines 216-224):
start from `f"{op}{ver}"`, then overwrite with `str(req.specifier)` of every
requirement of the matching plugin — the last one wins. -/
def lastSpecStr (reqs : List DependencyRequirement) (p : String) (dflt : String) : String :=
  reqs.foldl (fun acc r => if r.plugin_name == p then renderSpec r.specifier else acc) dflt

/-- Handling of one `(plugin_min, plugin_max)` pair in the nested loops of
`detect_conflicts` (lines 207-228): when the pair is infeasible, set the
conflict flag, append the min-side entry unconditionally, and append the
max-side entry only when not already present. -/
def processPair (reqs : List DependencyRequirement)
    (pm px : String × String × Op) (st : Bool × List (String × String)) :
    Bool × List (String × String) :=
  if pairBad pm.2 px.2 then
    let minStr := lastSpecStr reqs pm.1 (opStr pm.2.2 ++ pm.2.1)
    let maxStr := lastSpecStr reqs px.1 (opStr px.2.2 ++ px.2.1)
    let acc1 := st.2 ++ [(pm.1, minStr)]
    let acc2 := if acc1.contains (px.1, maxStr) then acc1 else acc1 ++ [(px.1, maxStr)]
    (true, acc2)
  else st

/-- The nested pair loops of `detect_conflicts` (lines 204-228), producing
`(conflict_found, conflicting_plugins)`. -/
def buildConflictList (reqs : List DependencyRequirement)
    (minVs maxVs : List (String × String × Op)) : Bool × List (String × String) :=
  minVs.foldl (fun st pm => maxVs.foldl (fun st2 px => processPair reqs pm px st2) st)
    (false, [])

/-- `detect_conflicts` (lines 166-237): walk the name-indexed requirement
groups in insertion order; skip groups with at most one requirement; for the
rest, build the per-plugin bound maps and run the pair loops; emit a
`ConflictInfo` when the flag was set. -/
def detect_conflicts : List (String × List DependencyRequirement) → List ConflictInfo
  | [] => []
  | (dep_name, reqs) :: rest =>
    if reqs.length ≤ 1 then detect_conflicts rest
    else
      let r := buildConflictList reqs (computeMinVersions reqs) (computeMaxVersions reqs)
      if r.1 then ⟨dep_name, r.2⟩ :: detect_conflicts rest
      else detect_conflicts rest

/-- The two dictionaries held by a `DependencyResolver` instance
(lines 79-82): `all_requirements` keyed by plugin, `dependency_requirements`
keyed by dependency name. -/
structure ResolverState where
  all_requirements : List (String × List DependencyRequirement)
  dependency_requirements : List (String × List DependencyRequirement)
  deriving DecidableEq, Repr

/-- A freshly constructed `DependencyResolver` (lines 66-82). -/
def emptyResolver : ResolverState := ⟨[], []⟩

/-- Lines 150-153: append a parsed requirement under its dependency name,
creating the entry when absent. -/
def addToIndex (idx : List (String × List DependencyRequirement))
    (r : DependencyRequirement) : List (String × List DependencyRequirement) :=
  match assocFind r.name idx with
  | none => assocSet r.name [r] idx
  | some l => assocSet r.name (l ++ [r]) idx

/-- The line loop of `parse_requirements` (lines 132-157): strip each line,
skip blanks and `#` comments, parse the rest; a success is appended to the
local list and the name index, a failure records a warning `(plugin, line
number)`; line numbers count every raw line starting from 1. -/
def parseLoop (plugin : String) :
    Nat → List (String × List DependencyRequirement) → List String →
    List DependencyRequirement × List (String × List DependencyRequirement) × List (String × Nat)
  | _, idx, [] => ([], idx, [])
  | n, idx, line :: rest =>
    let s := trimChars line.data
    if s.isEmpty || s.headD ' ' == '#' then parseLoop plugin (n + 1) idx rest
    else
      match parseLine s with
      | some pr =>
        let r : DependencyRequirement :=
          ⟨lowerStr pr.name, pr.clauses, String.mk s, plugin⟩
        let res := parseLoop plugin (n + 1) (addToIndex idx r) rest
        (r :: res.1, res.2.1, res.2.2)
      | none =>
        let res := parseLoop plugin (n + 1) idx rest
        (res.1, res.2.1, (plugin, n) :: res.2.2)

/-- `parse_requirements` (lines 120-164): run the line loop, then store the
local list under the plugin in `all_requirements`; also return the recorded
warnings. -/
def parse_requirements (st : ResolverState) (plugin : String) (lines : List String) :
    ResolverState × List (String × Nat) :=
  let res := parseLoop plugin 1 st.dependency_requirements lines
  (⟨assocSet plugin res.1 st.all_requirements, res.2.1⟩, res.2.2)

/-- `scan_plugins` (lines 84-118) restricted to its parsing effect: fold
`parse_requirements` over the manifest set (one `(plugin, lines)` pair per
plugin directory that has a `requirements.txt`), accumulating warnings. -/
def scan_plugins (st : ResolverState) (ms : List (String × List String)) :
    ResolverState × List (String × Nat) :=
  ms.foldl (fun acc m =>
    let r := parse_requirements acc.1 m.1 m.2
    (r.1, acc.2 ++ r.2)) (st, [])

/-- `check_conflicts` (lines 438-456): construct a fresh `DependencyResolver`
(line 446) — whatever resolver a previous run produced is not reused — scan,
and detect.  Returns the scanned state and the conflict list. -/
def check_conflicts (_prior : ResolverState) (ms : List (String × List String)) :
    ResolverState × List ConflictInfo :=
  let scanned := (scan_plugins emptyResolver ms).1
  (scanned, detect_conflicts scanned.dependency_requirements)

/-- The operator substrings scanned for by `replace_dependency`
(lines 338 and 354): `['==', '>=', '<=', '>', '<', '~=']`. -/
def opSubstrings : List (List Char) := [['=', '='], ['>', '='], ['<', '='], ['>'], ['<'], ['~', '=']]

/-- Python's substring test `needle in hay` on character lists. -/
def hasInfixChars (needle : List Char) : List Char → Bool
  | [] => needle.isEmpty
  | c :: rest => needle.isPrefixOf (c :: rest) || hasInfixChars needle rest

/-- `any(op in dep for op in ['==', '>=', '<=', '>', '<', '~='])`. -/
def containsAnyOp (s : String) : Bool :=
  opSubstrings.any fun o => hasInfixChars o s.data

/-- One line of the rewrite loop of `replace_dependency` (lines 395-423):
blank, comment and unparseable lines pass through; a parsed line whose
lowercased name equals the old name and whose rendered specifier matches the
optional filter is replaced by the replacement text plus a newline. -/
def replLine (oname over newFull : String) (line : String) : String × Bool :=
  let s := trimChars line.data
  if s.isEmpty || s.headD ' ' == '#' then (line, false)
  else
    match parseLine s with
    | none => (line, false)
    | some r =>
      if lowerStr r.name == oname && (over == "" || renderSpec r.clauses == over) then
        (newFull ++ "\n", true)
      else (line, false)

/-- The whole-file rewrite loop (lines 392-423): new line list plus the
`file_updated` flag. -/
def processLines (oname over newFull : String) : List String → List String × Bool
  | [] => ([], false)
  | l :: ls =>
    let r := replLine oname over newFull l
    let rest := processLines oname over newFull ls
    (r.1 :: rest.1, r.2 || rest.2)

/-- `replace_dependency` (lines 320-436).  Parse the old spec: with an
operator substring present it must parse as a requirement (name lowercased,
rendered specifier kept as filter), otherwise it is a plain lowercased name
with no filter.  Parse the new spec symmetrically (the raw text is what gets
written).  Then rewrite every manifest, leaving files with no match
untouched, and return the rewritten set with the count of modified files. -/
def replace_dependency (old_dep new_dep : String) (ms : List (String × List String)) :
    List (String × List String) × Nat :=
  let oldInfo : Option (String × String) :=
    if containsAnyOp old_dep then
      match parseLine old_dep.data with
      | some r => some (lowerStr r.name, renderSpec r.clauses)
      | none => none
    else some (lowerStr old_dep, "")
  match oldInfo with
  | none => (ms, 0)
  | some oi =>
    let newOk : Option String :=
      if containsAnyOp new_dep then (parseLine new_dep.data).map fun _ => new_dep
      else some new_dep
    match newOk with
    | none => (ms, 0)
    | some newFull =>
      ms.foldl (fun acc m =>
        let r := processLines oi.1 oi.2 newFull m.2
        if r.2 then (acc.1 ++ [(m.1, r.1)], acc.2 + 1)
        else (acc.1 ++ [m], acc.2)) ([], 0)

theorem verCmp_refl (a : List Nat) : verCmp a a = .eq := by
  induction a with
  | nil => rfl
  | cons x xs ih => simp [verCmp, ih]

theorem verCmp_zeros_left {a : List Nat} (h : isZeros a = true) (b : List Nat) :
    verCmp a b = verCmp [] b := by
  induction a generalizing b with
  | nil => rfl
  | cons x xs ih =>
    have hx : x = 0 := by
      simp only [isZeros, Bool.and_eq_true, beq_iff_eq] at h; exact h.1
    have hxs : isZeros xs = true := by
      simp only [isZeros, Bool.and_eq_true] at h; exact h.2
    subst hx
    cases b with
    | nil => simp [verCmp, isZeros, hxs]
    | cons y ys =>
      simp only [verCmp]
      by_cases hy : y = 0
      · subst hy
        simp only [Nat.lt_irrefl, if_false]
        rw [ih hxs ys]
        simp [verCmp, isZeros]
      · have h1 : 0 < y := Nat.pos_of_ne_zero hy
        simp [h1, Nat.not_lt_of_lt h1, isZeros, hy]

theorem verCmp_swap (a b : List Nat) : verCmp b a = (verCmp a b).swap := by
  induction a generalizing b with
  | nil =>
    cases b with
    | nil => rfl
    | cons y ys =>
      show verCmp (y :: ys) [] = (verCmp [] (y :: ys)).swap
      simp only [verCmp]
      by_cases h : isZeros (y :: ys) <;> simp [h, Ordering.swap]
  | cons x xs ih =>
    cases b with
    | nil =>
      show verCmp [] (x :: xs) = (verCmp (x :: xs) []).swap
      simp only [verCmp]
      by_cases h : isZeros (x :: xs) <;> simp [h, Ordering.swap]
    | cons y ys =>
      show verCmp (y :: ys) (x :: xs) = (verCmp (x :: xs) (y :: ys)).swap
      simp only [verCmp]
      rcases Nat.lt_trichotomy x y with h | h | h
      · simp [h, Nat.not_lt_of_lt h, Ordering.swap]
      · subst h
        simp [Nat.lt_irrefl, ih]
      · simp [h, Nat.not_lt_of_lt h, Ordering.swap]

theorem verCmp_zeros_right {b : List Nat} (h : isZeros b = true) (a : List Nat) :
    verCmp a b = verCmp a [] := by
  rw [verCmp_swap, verCmp_zeros_left h, ← verCmp_swap]

theorem verCmp_nil_ne_gt (c : List Nat) : verCmp [] c ≠ .gt := by
  cases c with
  | nil => simp [verCmp]
  | cons z zs =>
    simp only [verCmp]
    split <;> simp

theorem isZeros_of_cmp_nil {a : List Nat} (h : verCmp a [] ≠ .gt) : isZeros a = true := by
  cases a with
  | nil => rfl
  | cons x xs =>
    by_contra hz
    rw [Bool.not_eq_true] at hz
    simp only [verCmp, hz] at h
    exact h rfl

theorem verCmp_trans_ne_gt : ∀ {a b c : List Nat},
    verCmp a b ≠ .gt → verCmp b c ≠ .gt → verCmp a c ≠ .gt := by
  intro a
  induction a with
  | nil => intro b c _ _; exact verCmp_nil_ne_gt c
  | cons x xs ih =>
    intro b c h1 h2
    cases b with
    | nil =>
      have hz : isZeros (x :: xs) = true := isZeros_of_cmp_nil h1
      rw [verCmp_zeros_left hz]
      exact verCmp_nil_ne_gt c
    | cons y ys =>
      cases c with
      | nil =>
        have hz : isZeros (y :: ys) = true := isZeros_of_cmp_nil h2
        have hy : y = 0 := by
          simp only [isZeros, Bool.and_eq_true, beq_iff_eq] at hz; exact hz.1
        have hys : isZeros ys = true := by
          simp only [isZeros, Bool.and_eq_true] at hz; exact hz.2
        subst hy
        simp only [verCmp, Nat.not_lt_zero, if_false] at h1
        by_cases hx : 0 < x
        · simp [hx] at h1
        · have hx0 : x = 0 := by omega
          subst hx0
          simp only [Nat.lt_irrefl, if_false] at h1
          rw [verCmp_zeros_right hys] at h1
          have hxs : isZeros xs = true := isZeros_of_cmp_nil h1
          simp [verCmp, isZeros, hxs]
      | cons z zs =>
        simp only [verCmp] at h1 h2 ⊢
        by_cases hyx : y < x
        · simp [Nat.not_lt_of_lt hyx, hyx] at h1
        · by_cases hzy : z < y
          · simp [Nat.not_lt_of_lt hzy, hzy] at h2
          · by_cases hxz : x < z
            · simp [hxz]
            · have hx1 : x = z := by omega
              have hx2 : x = y := by omega
              subst hx1; subst hx2
              simp only [Nat.lt_irrefl, if_false] at h1 h2 ⊢
              exact ih h1 h2

theorem verCmp_eq_iff (a b : List Nat) :
    verCmp a b = .eq ↔ (verCmp a b ≠ .gt ∧ verCmp b a ≠ .gt) := by
  rw [verCmp_swap a b]
  cases h : verCmp a b <;> simp [Ordering.swap]

theorem verCmp_gt_of_not_le {a b : List Nat} (h : ¬ verCmp a b ≠ .gt) : verCmp a b = .gt := by
  by_contra hc
  exact h hc

/-- Every nonempty list has an element whose key is maximal in the `verCmp`
order. -/
theorem exists_verCmp_max {α : Type} (f : α → List Nat) (xs : List α) (h : xs ≠ []) :
    ∃ m ∈ xs, ∀ x ∈ xs, verCmp (f x) (f m) ≠ .gt := by
  induction xs with
  | nil => exact absurd rfl h
  | cons x t ih =>
    cases t with
    | nil =>
      refine ⟨x, by simp, ?_⟩
      intro z hz
      rw [List.mem_singleton] at hz
      subst hz
      simp [verCmp_refl]
    | cons y t2 =>
      obtain ⟨m, hm, hmax⟩ := ih (by simp)
      by_cases hc : verCmp (f x) (f m) = .gt
      · refine ⟨x, by simp, ?_⟩
        intro z hz
        rcases List.mem_cons.mp hz with rfl | hz2
        · simp [verCmp_refl]
        · have h1 := hmax z hz2
          have h2 : verCmp (f m) (f x) ≠ .gt := by
            rw [verCmp_swap, hc]
            simp [Ordering.swap]
          exact verCmp_trans_ne_gt h1 h2
      · refine ⟨m, List.mem_cons_of_mem _ hm, ?_⟩
        intro z hz
        rcases List.mem_cons.mp hz with rfl | hz2
        · exact hc
        · exact hmax z hz2

/-- Every nonempty list has an element whose key is minimal in the `verCmp`
order. -/
theorem exists_verCmp_min {α : Type} (f : α → List Nat) (xs : List α) (h : xs ≠ []) :
    ∃ m ∈ xs, ∀ x ∈ xs, verCmp (f m) (f x) ≠ .gt := by
  induction xs with
  | nil => exact absurd rfl h
  | cons x t ih =>
    cases t with
    | nil =>
      refine ⟨x, by simp, ?_⟩
      intro z hz
      rw [List.mem_singleton] at hz
      subst hz
      simp [verCmp_refl]
    | cons y t2 =>
      obtain ⟨m, hm, hmin⟩ := ih (by simp)
      by_cases hc : verCmp (f m) (f x) = .gt
      · refine ⟨x, by simp, ?_⟩
        intro z hz
        rcases List.mem_cons.mp hz with rfl | hz2
        · simp [verCmp_refl]
        · have h1 := hmin z hz2
          have h2 : verCmp (f x) (f m) ≠ .gt := by
            rw [verCmp_swap, hc]
            simp [Ordering.swap]
          exact verCmp_trans_ne_gt h2 h1
      · refine ⟨m, List.mem_cons_of_mem _ hm, ?_⟩
        intro z hz
        rcases List.mem_cons.mp hz with rfl | hz2
        · exact hc
        · exact hmin z hz2

theorem innerFold_fst (reqs : List DependencyRequirement)
    (pm : String × String × Op) (maxVs : List (String × String × Op))
    (st : Bool × List (String × String)) :
    (maxVs.foldl (fun st2 px => processPair reqs pm px st2) st).1
      = (st.1 || maxVs.any fun px => pairBad pm.2 px.2) := by
  induction maxVs generalizing st with
  | nil => simp
  | cons px rest ih =>
    simp only [List.foldl_cons, List.any_cons]
    rw [ih]
    by_cases h : pairBad pm.2 px.2 = true
    · simp only [processPair, h, if_true]
      simp [h]
    · rw [Bool.not_eq_true] at h
      simp only [processPair, h, Bool.false_eq_true, if_false]
      simp [h]

theorem buildConflictList_fst (reqs : List DependencyRequirement)
    (minVs maxVs : List (String × String × Op)) :
    (buildConflictList reqs minVs maxVs).1
      = minVs.any fun pm => maxVs.any fun px => pairBad pm.2 px.2 := by
  unfold buildConflictList
  suffices h : ∀ st : Bool × List (String × String),
      (minVs.foldl (fun st pm => maxVs.foldl (fun st2 px => processPair reqs pm px st2) st) st).1
        = (st.1 || minVs.any fun pm => maxVs.any fun px => pairBad pm.2 px.2) by
    rw [h (false, [])]
    simp
  induction minVs with
  | nil => intro st; simp
  | cons pm rest ih =>
    intro st
    simp only [List.foldl_cons, List.any_cons]
    rw [ih, innerFold_fst]
    simp [Bool.or_assoc]

theorem pairBad_iff (mn mx : String × Op) :
    pairBad mn mx = true ↔
      (verCmp (pv mn.1) (pv mx.1) = .gt ∨
        (verCmp (pv mn.1) (pv mx.1) = .eq ∧ (mn.2 = Op.gt ∨ mx.2 = Op.lt))) := by
  unfold pairBad vGTb vEQb
  have h1 : (Ordering.lt == Ordering.gt) = false := rfl
  have h2 : (Ordering.lt == Ordering.eq) = false := rfl
  have h3 : (Ordering.eq == Ordering.gt) = false := rfl
  have h4 : (Ordering.eq == Ordering.eq) = true := rfl
  have h5 : (Ordering.gt == Ordering.gt) = true := rfl
  have h6 : (Ordering.gt == Ordering.eq) = false := rfl
  cases h : verCmp (pv mn.1) (pv mx.1) <;> simp [h1, h2, h3, h4, h5, h6]

/-- The spec's infeasibility test (section 4.4, steps 2-3), written out over
the per-owner effective bound maps: some owner attaining the global lower
bound (the maximum of all effective lower bounds) and some owner attaining
the global upper bound (the minimum of all effective upper bounds) are
jointly infeasible — the lower strictly exceeds the upper, or the two are
equal and the lower was asserted with `>` or the upper with `<`. -/
def specGroupInfeasible (minVs maxVs : List (String × String × Op)) : Prop :=
  ∃ l ∈ minVs, ∃ u ∈ maxVs,
    (∀ l2 ∈ minVs, verCmp (pv l2.2.1) (pv l.2.1) ≠ .gt) ∧
    (∀ u2 ∈ maxVs, verCmp (pv u.2.1) (pv u2.2.1) ≠ .gt) ∧
    (verCmp (pv l.2.1) (pv u.2.1) = .gt ∨
      (verCmp (pv l.2.1) (pv u.2.1) = .eq ∧ (l.2.2 = Op.gt ∨ u.2.2 = Op.lt)))

theorem found_iff_specGroupInfeasible (reqs : List DependencyRequirement)
    (minVs maxVs : List (String × String × Op)) :
    (buildConflictList reqs minVs maxVs).1 = true ↔ specGroupInfeasible minVs maxVs := by
  rw [buildConflictList_fst]
  simp only [List.any_eq_true]
  constructor
  · rintro ⟨pm, hpm, px, hpx, hbad⟩
    rw [pairBad_iff] at hbad
    obtain ⟨lm, hlm, hlmax⟩ := exists_verCmp_max (fun e => pv e.2.1) minVs
      (by intro h; rw [h] at hpm; exact List.not_mem_nil _ hpm)
    obtain ⟨um, hum, humin⟩ := exists_verCmp_min (fun e => pv e.2.1) maxVs
      (by intro h; rw [h] at hpx; exact List.not_mem_nil _ hpx)
    have hpm_le : verCmp (pv pm.2.1) (pv lm.2.1) ≠ .gt := hlmax pm hpm
    have hum_le : verCmp (pv um.2.1) (pv px.2.1) ≠ .gt := humin px hpx
    rcases hbad with hgt | ⟨heq, hops⟩
    · -- strict case: the attaining pair is also strictly infeasible
      refine ⟨lm, hlm, um, hum, hlmax, humin, Or.inl ?_⟩
      by_contra hc
      have hle : verCmp (pv lm.2.1) (pv um.2.1) ≠ .gt := hc
      have h1 : verCmp (pv pm.2.1) (pv um.2.1) ≠ .gt := verCmp_trans_ne_gt hpm_le hle
      have h2 : verCmp (pv pm.2.1) (pv px.2.1) ≠ .gt := verCmp_trans_ne_gt h1 hum_le
      exact h2 hgt
    · -- tie case: pm and px share one value v; lm and um also sit at v
      have hpm_ge_px : verCmp (pv pm.2.1) (pv px.2.1) ≠ .gt := by rw [heq]; simp
      have hpx_ge_pm : verCmp (pv px.2.1) (pv pm.2.1) ≠ .gt := by
        rw [verCmp_swap, heq]; simp [Ordering.swap]
      -- um ≤ px ≤(eq) pm ≤ lm
      have hum_le_pm : verCmp (pv um.2.1) (pv pm.2.1) ≠ .gt :=
        verCmp_trans_ne_gt hum_le hpx_ge_pm
      have hum_le_lm : verCmp (pv um.2.1) (pv lm.2.1) ≠ .gt :=
        verCmp_trans_ne_gt hum_le_pm hpm_le
      rcases hops with hopl | hopu
      · -- the lower operator of pm is `>`: pm itself attains the global max or lm is even bigger
        by_cases hc : verCmp (pv lm.2.1) (pv um.2.1) = .gt
        · exact ⟨lm, hlm, um, hum, hlmax, humin, Or.inl hc⟩
        · -- all four values coincide; use the pair (pm, um)
          have hlm_le_um : verCmp (pv lm.2.1) (pv um.2.1) ≠ .gt := hc
          have hlm_le_pm : verCmp (pv lm.2.1) (pv pm.2.1) ≠ .gt :=
            verCmp_trans_ne_gt hlm_le_um hum_le_pm
          have hmax2 : ∀ l2 ∈ minVs, verCmp (pv l2.2.1) (pv pm.2.1) ≠ .gt := by
            intro l2 hl2
            exact verCmp_trans_ne_gt (hlmax l2 hl2) hlm_le_pm
          have heq2 : verCmp (pv pm.2.1) (pv um.2.1) = .eq := by
            rw [verCmp_eq_iff]
            exact ⟨verCmp_trans_ne_gt hpm_le hlm_le_um, hum_le_pm⟩
          exact ⟨pm, hpm, um, hum, hmax2, humin, Or.inr ⟨heq2, Or.inl hopl⟩⟩
      · -- the upper operator of px is `<`
        by_cases hc : verCmp (pv lm.2.1) (pv um.2.1) = .gt
        · exact ⟨lm, hlm, um, hum, hlmax, humin, Or.inl hc⟩
        · have hlm_le_um : verCmp (pv lm.2.1) (pv um.2.1) ≠ .gt := hc
          have hpx_le_um : verCmp (pv px.2.1) (pv um.2.1) ≠ .gt := by
            have h1 : verCmp (pv px.2.1) (pv lm.2.1) ≠ .gt :=
              verCmp_trans_ne_gt hpx_ge_pm hpm_le
            exact verCmp_trans_ne_gt h1 hlm_le_um
          have hmin2 : ∀ u2 ∈ maxVs, verCmp (pv px.2.1) (pv u2.2.1) ≠ .gt := by
            intro u2 hu2
            exact verCmp_trans_ne_gt hpx_le_um (humin u2 hu2)
          have heq2 : verCmp (pv lm.2.1) (pv px.2.1) = .eq := by
            rw [verCmp_eq_iff]
            refine ⟨verCmp_trans_ne_gt hlm_le_um hum_le, ?_⟩
            exact verCmp_trans_ne_gt hpx_ge_pm hpm_le
          exact ⟨lm, hlm, px, hpx, hlmax, hmin2, Or.inr ⟨heq2, Or.inr hopu⟩⟩
  · rintro ⟨l, hl, u, hu, _, _, hcond⟩
    exact ⟨l, hl, u, hu, (pairBad_iff l.2 u.2).mpr hcond⟩

theorem detect_single_iff (name : String) (reqs : List DependencyRequirement) :
    detect_conflicts [(name, reqs)] ≠ [] ↔
      (2 ≤ reqs.length ∧
        (buildConflictList reqs (computeMinVersions reqs) (computeMaxVersions reqs)).1 = true) := by
  by_cases h : reqs.length ≤ 1
  · simp only [detect_conflicts, h, if_true]
    simp
    omega
  · by_cases h2 : (buildConflictList reqs (computeMinVersions reqs) (computeMaxVersions reqs)).1 = true
    · simp only [detect_conflicts, h, if_false, h2, if_true]
      simp
      omega
    · rw [Bool.not_eq_true] at h2
      simp only [detect_conflicts, h, if_false, h2]
      simp

/-- C2: a group examined by `detect_conflicts` is flagged as conflicting
exactly when the spec's infeasibility test holds of the per-owner effective
bound maps — the global lower bound exceeds the global upper bound, or the
two are equal and a contributing lower bound used `>` or a contributing
upper bound used `<`; on a single-group index, a conflict is reported
exactly when the group has at least two requirements and the flag is set.
In particular `libx>=1.0` against `libx<=1.0` is no conflict while
`libx>1.0` against `libx<=1.0` is one. -/
theorem c2_infeasibility_test :
    (∀ reqs : List DependencyRequirement,
      ((buildConflictList reqs (computeMinVersions reqs) (computeMaxVersions reqs)).1 = true
        ↔ specGroupInfeasible (computeMinVersions reqs) (computeMaxVersions reqs)))
    ∧ (∀ (name : String) (reqs : List DependencyRequirement),
        detect_conflicts [(name, reqs)] ≠ [] ↔
          (2 ≤ reqs.length ∧
            (buildConflictList reqs (computeMinVersions reqs) (computeMaxVersions reqs)).1 = true))
    ∧ detect_conflicts (scan_plugins emptyResolver
        [("A", ["libx>=1.0"]), ("B", ["libx<=1.0"])]).1.dependency_requirements = []
    ∧ detect_conflicts (scan_plugins emptyResolver
        [("A", ["libx>1.0"]), ("B", ["libx<=1.0"])]).1.dependency_requirements
        = [⟨"libx", [("A", ">1.0"), ("B", "<=1.0")]⟩] := by
  refine ⟨?_, detect_single_iff, ?_, ?_⟩
  · intro reqs
    exact found_iff_specGroupInfeasible reqs (computeMinVersions reqs) (computeMaxVersions reqs)
  · rfl
  · rfl

/-- C1 (code bug witness): a dependency name contributed by exactly one
owner still produces a Conflict.  Scanning the single plugin `A` whose
manifest declares `libx>=2.0` and `libx<=1.0` on two lines puts only
requirements with `plugin_name = "A"` in the index, yet `detect_conflicts`
reports a conflict for `libx`: the guard at line 176 counts requirement
lines (`len(requirements) <= 1`), not distinct owners, contradicting its
own comment on line 177 ("only one plugin uses this dependency — conflict
impossible"). -/
theorem c1_single_owner_conflict :
    (∀ g ∈ (scan_plugins emptyResolver
        [("A", ["libx>=2.0", "libx<=1.0"])]).1.dependency_requirements,
      ∀ r ∈ g.2, r.plugin_name = "A")
    ∧ detect_conflicts (scan_plugins emptyResolver
        [("A", ["libx>=2.0", "libx<=1.0"])]).1.dependency_requirements
        = [⟨"libx", [("A", "<=1.0")]⟩] := by
  exact ⟨by decide, rfl⟩

/-- C3 (counterexample): `libx~=2.0` from owner A together with `libx<1.0`
from owner B is NOT detected as a conflict — against the claim, which says
the `~=X.Y` clause contributes `X.Y` as an inclusive lower bound and makes
this a conflict. -/
theorem c3_counterexample :
    detect_conflicts (scan_plugins emptyResolver
        [("A", ["libx~=2.0"]), ("B", ["libx<1.0"])]).1.dependency_requirements = [] := by
  rfl

/-- Requirements with all `~=` clauses removed from their specifiers. -/
def eraseCompat (reqs : List DependencyRequirement) : List DependencyRequirement :=
  reqs.map fun r => { r with specifier := r.specifier.filter fun c => !(c.op == Op.compat) }

theorem foldClauses_eraseCompat (sidePred : Op → Bool) (better : String → String → Bool)
    (q : String) (hside : sidePred Op.compat = false) (cs : List Clause) :
    ∀ m, ((cs.filter fun c => !(c.op == Op.compat)).foldl (boundStep sidePred better q) m)
      = cs.foldl (boundStep sidePred better q) m := by
  induction cs with
  | nil => intro m; rfl
  | cons c rest ih =>
    intro m
    by_cases h : c.op = Op.compat
    · have hf : (!(c.op == Op.compat)) = false := by simp [h]
      rw [List.filter_cons, hf]
      simp only [Bool.false_eq_true, if_false]
      have h2 : sidePred c.op = false := by rw [h]; exact hside
      simp only [List.foldl_cons, boundStep, h2, Bool.false_eq_true, if_false]
      exact ih m
    · have hf : (!(c.op == Op.compat)) = true := by simp [h]
      rw [List.filter_cons, hf]
      simp only [if_true, List.foldl_cons]
      exact ih (boundStep sidePred better q m c)

theorem collectBounds_eraseCompat (sidePred : Op → Bool) (better : String → String → Bool)
    (hside : sidePred Op.compat = false) (reqs : List DependencyRequirement) :
    collectBounds sidePred better (eraseCompat reqs) = collectBounds sidePred better reqs := by
  unfold collectBounds eraseCompat
  suffices h : ∀ m,
      ((reqs.map fun r =>
          { r with specifier := r.specifier.filter fun c => !(c.op == Op.compat) }).foldl
        (fun m r => r.specifier.foldl (boundStep sidePred better r.plugin_name) m) m)
      = reqs.foldl (fun m r => r.specifier.foldl (boundStep sidePred better r.plugin_name) m) m by
    exact h []
  induction reqs with
  | nil => intro m; rfl
  | cons r rest ih =>
    intro m
    simp only [List.map_cons, List.foldl_cons]
    rw [foldClauses_eraseCompat sidePred better r.plugin_name hside r.specifier m]
    exact ih _

/-- C3 (amended): `~=` clauses are invisible to conflict detection — erasing
them changes neither bound map nor the conflict flag of any group, and the
list of dependency names reported by `detect_conflicts` is unchanged. -/
theorem c3_compat_ignored :
    (∀ reqs : List DependencyRequirement,
      computeMinVersions (eraseCompat reqs) = computeMinVersions reqs
      ∧ computeMaxVersions (eraseCompat reqs) = computeMaxVersions reqs
      ∧ (buildConflictList (eraseCompat reqs) (computeMinVersions (eraseCompat reqs))
            (computeMaxVersions (eraseCompat reqs))).1
          = (buildConflictList reqs (computeMinVersions reqs) (computeMaxVersions reqs)).1)
    ∧ ∀ groups : List (String × List DependencyRequirement),
        (detect_conflicts (groups.map fun g => (g.1, eraseCompat g.2))).map
            ConflictInfo.dependency_name
          = (detect_conflicts groups).map ConflictInfo.dependency_name := by
  have hmin : ∀ reqs, computeMinVersions (eraseCompat reqs) = computeMinVersions reqs :=
    fun reqs => collectBounds_eraseCompat isLowerOp minBetter rfl reqs
  have hmax : ∀ reqs, computeMaxVersions (eraseCompat reqs) = computeMaxVersions reqs :=
    fun reqs => collectBounds_eraseCompat isUpperOp maxBetter rfl reqs
  have hflag : ∀ reqs : List DependencyRequirement,
      (buildConflictList (eraseCompat reqs) (computeMinVersions (eraseCompat reqs))
          (computeMaxVersions (eraseCompat reqs))).1
        = (buildConflictList reqs (computeMinVersions reqs) (computeMaxVersions reqs)).1 := by
    intro reqs
    rw [buildConflictList_fst, buildConflictList_fst, hmin, hmax]
  refine ⟨fun reqs => ⟨hmin reqs, hmax reqs, hflag reqs⟩, ?_⟩
  intro groups
  induction groups with
  | nil => rfl
  | cons g rest ih =>
    have hlen : (eraseCompat g.2).length = g.2.length := by simp [eraseCompat]
    by_cases h : g.2.length ≤ 1
    · simp only [List.map_cons, detect_conflicts, hlen, h, if_true]
      exact ih
    · have hl2 : ¬ (eraseCompat g.2).length ≤ 1 := by rw [hlen]; exact h
      by_cases h2 : (buildConflictList g.2 (computeMinVersions g.2) (computeMaxVersions g.2)).1 = true
      · have h3 : (buildConflictList (eraseCompat g.2) (computeMinVersions (eraseCompat g.2))
            (computeMaxVersions (eraseCompat g.2))).1 = true := by rw [hflag]; exact h2
        simp only [List.map_cons, detect_conflicts, hl2, h, if_false, h3, h2, if_true]
        rw [ih]
      · rw [Bool.not_eq_true] at h2
        have h3 : (buildConflictList (eraseCompat g.2) (computeMinVersions (eraseCompat g.2))
            (computeMaxVersions (eraseCompat g.2))).1 = false := by rw [hflag]; exact h2
        simp only [List.map_cons, detect_conflicts, hl2, h, if_false, h3, h2]
        exact ih

theorem beq_ordering_eq {o o2 : Ordering} (h : (o == o2) = true) : o = o2 := by
  cases o <;> cases o2 <;> first | rfl | exact absurd h (by decide)

theorem beq_ordering_ne {o o2 : Ordering} (h : (o == o2) = false) : o ≠ o2 := by
  intro hc
  subst hc
  cases o <;> exact absurd h (by decide)

theorem assocFind_assocSet_self {α : Type} (k : String) (v : α) (m : List (String × α)) :
    assocFind k (assocSet k v m) = some v := by
  induction m with
  | nil => simp [assocSet, assocFind]
  | cons kv rest ih =>
    obtain ⟨k2, v2⟩ := kv
    by_cases h : (k2 == k) = true
    · simp [assocSet, assocFind, h]
    · rw [Bool.not_eq_true] at h
      simp [assocSet, assocFind, h, ih]

theorem assocFind_assocSet_other {α : Type} {k k2 : String} (hne : k2 ≠ k) (v : α)
    (m : List (String × α)) : assocFind k (assocSet k2 v m) = assocFind k m := by
  induction m with
  | nil =>
    have h : (k2 == k) = false := by simp [hne]
    simp [assocSet, assocFind, h]
  | cons kv rest ih =>
    obtain ⟨k3, v3⟩ := kv
    by_cases h1 : (k3 == k2) = true
    · have hk3 : k3 = k2 := by simpa using h1
      have h2 : (k3 == k) = false := by simp [hk3, hne]
      simp [assocSet, assocFind, h1, h2]
    · rw [Bool.not_eq_true] at h1
      by_cases h2 : (k3 == k) = true
      · simp [assocSet, assocFind, h1, h2]
      · rw [Bool.not_eq_true] at h2
        simp [assocSet, assocFind, h1, h2, ih]

/-- The per-plugin bound update applied to one stored bound (the body of the
`min_versions`/`max_versions` update): first clause kept, later ones only on
a strict improvement. -/
def boundUpd (better : String → String → Bool) (acc : Option (String × Op)) (c : Clause) :
    Option (String × Op) :=
  match acc with
  | none => some (c.ver, c.op)
  | some cur => if better c.ver cur.1 then some (c.ver, c.op) else acc

/-- One owner's effective bound: fold the owner's side clauses through the
update rule. -/
def effBound (better : String → String → Bool) (init : Option (String × Op))
    (cs : List Clause) : Option (String × Op) :=
  cs.foldl (boundUpd better) init

/-- The subsequence of side clauses one owner contributes to a group, in
scan order. -/
def ownerSideClauses (sidePred : Op → Bool) (p : String)
    (reqs : List DependencyRequirement) : List Clause :=
  ((reqs.filter fun r => r.plugin_name == p).map fun r =>
    r.specifier.filter fun c => sidePred c.op).join

theorem boundStep_find_self (sidePred : Op → Bool) (better : String → String → Bool)
    (p : String) (m : List (String × String × Op)) (c : Clause) :
    assocFind p (boundStep sidePred better p m c)
      = if sidePred c.op then boundUpd better (assocFind p m) c else assocFind p m := by
  unfold boundStep boundUpd
  by_cases hs : sidePred c.op = true
  · simp only [hs, if_true]
    cases hm : assocFind p m with
    | none => simp [assocFind_assocSet_self]
    | some cur =>
      by_cases hb : better c.ver cur.1 = true
      · simp [hb, assocFind_assocSet_self]
      · rw [Bool.not_eq_true] at hb
        simp [hb, hm]
  · rw [Bool.not_eq_true] at hs
    simp [hs]

theorem boundStep_find_other (sidePred : Op → Bool) (better : String → String → Bool)
    {p q : String} (hne : q ≠ p) (m : List (String × String × Op)) (c : Clause) :
    assocFind p (boundStep sidePred better q m c) = assocFind p m := by
  unfold boundStep
  by_cases hs : sidePred c.op = true
  · simp only [hs, if_true]
    cases hm : assocFind q m with
    | none => simp [assocFind_assocSet_other hne]
    | some cur =>
      by_cases hb : better c.ver cur.1 = true
      · simp [hb, assocFind_assocSet_other hne]
      · rw [Bool.not_eq_true] at hb
        simp [hb]
  · rw [Bool.not_eq_true] at hs
    simp [hs]

theorem foldClauses_find_self (sidePred : Op → Bool) (better : String → String → Bool)
    (p : String) (cs : List Clause) :
    ∀ m, assocFind p (cs.foldl (boundStep sidePred better p) m)
      = effBound better (assocFind p m) (cs.filter fun c => sidePred c.op) := by
  induction cs with
  | nil => intro m; rfl
  | cons c rest ih =>
    intro m
    rw [List.foldl_cons, List.filter_cons]
    by_cases hs : sidePred c.op = true
    · rw [if_pos hs, ih]
      unfold effBound
      rw [List.foldl_cons]
      congr 1
      rw [boundStep_find_self, if_pos hs]
    · rw [Bool.not_eq_true] at hs
      rw [if_neg (by simp [hs]), ih]
      congr 1
      rw [boundStep_find_self, hs]
      simp

theorem foldClauses_find_other (sidePred : Op → Bool) (better : String → String → Bool)
    {p q : String} (hne : q ≠ p) (cs : List Clause) :
    ∀ m, assocFind p (cs.foldl (boundStep sidePred better q) m) = assocFind p m := by
  induction cs with
  | nil => intro m; rfl
  | cons c rest ih =>
    intro m
    rw [List.foldl_cons, ih, boundStep_find_other sidePred better hne]

theorem collectBounds_find (sidePred : Op → Bool) (better : String → String → Bool)
    (p : String) (reqs : List DependencyRequirement) :
    assocFind p (collectBounds sidePred better reqs)
      = effBound better none (ownerSideClauses sidePred p reqs) := by
  unfold collectBounds
  suffices h : ∀ m, assocFind p
      (reqs.foldl (fun m r => r.specifier.foldl (boundStep sidePred better r.plugin_name) m) m)
      = effBound better (assocFind p m) (ownerSideClauses sidePred p reqs) by
    exact h []
  induction reqs with
  | nil => intro m; simp [ownerSideClauses, effBound]
  | cons r rest ih =>
    intro m
    rw [List.foldl_cons]
    by_cases hp : (r.plugin_name == p) = true
    · have hp2 : r.plugin_name = p := by simpa using hp
      have hos : ownerSideClauses sidePred p (r :: rest)
          = (r.specifier.filter fun c => sidePred c.op) ++ ownerSideClauses sidePred p rest := by
        unfold ownerSideClauses
        rw [List.filter_cons, if_pos hp]
        simp
      rw [hos, ih]
      unfold effBound
      rw [List.foldl_append]
      congr 1
      rw [hp2]
      exact foldClauses_find_self sidePred better p r.specifier m
    · rw [Bool.not_eq_true] at hp
      have hp2 : r.plugin_name ≠ p := by simpa using hp
      have hos : ownerSideClauses sidePred p (r :: rest) = ownerSideClauses sidePred p rest := by
        unfold ownerSideClauses
        rw [List.filter_cons, if_neg (by simp [hp])]
      rw [hos, ih, foldClauses_find_other sidePred better hp2]

theorem effBound_min_le (cs : List Clause) :
    ∀ (init : Option (String × Op)) (v : String) (o : Op),
      effBound minBetter init cs = some (v, o) →
      (∀ w q, init = some (w, q) → verCmp (pv w) (pv v) ≠ .gt)
      ∧ (∀ c ∈ cs, verCmp (pv c.ver) (pv v) ≠ .gt) := by
  induction cs with
  | nil =>
    intro init v o h
    refine ⟨?_, by simp⟩
    intro w q hw
    rw [hw] at h
    injection h with h2
    rw [show w = v from congrArg Prod.fst h2]
    rw [verCmp_refl]
    simp
  | cons c rest ih =>
    intro init v o h
    unfold effBound at h
    rw [List.foldl_cons] at h
    have hstep := ih (boundUpd minBetter init c) v o h
    constructor
    · intro w q hw
      rw [hw] at hstep
      by_cases hb : minBetter c.ver w = true
      · have hc : verCmp (pv c.ver) (pv v) ≠ .gt := by
          refine hstep.1 c.ver c.op ?_
          simp [boundUpd, hb]
        have hw_lt : verCmp (pv w) (pv c.ver) ≠ .gt := by
          have hgt : verCmp (pv c.ver) (pv w) = .gt := beq_ordering_eq hb
          rw [verCmp_swap, hgt]
          simp [Ordering.swap]
        exact verCmp_trans_ne_gt hw_lt hc
      · rw [Bool.not_eq_true] at hb
        refine hstep.1 w q ?_
        simp [boundUpd, hb]
    · intro c2 hc2
      rcases List.mem_cons.mp hc2 with rfl | hc3
      · cases hinit : init with
        | none =>
          rw [hinit] at hstep
          refine hstep.1 c2.ver c2.op ?_
          simp [boundUpd]
        | some cur =>
          rw [hinit] at hstep
          by_cases hb : minBetter c2.ver cur.1 = true
          · refine hstep.1 c2.ver c2.op ?_
            simp [boundUpd, hb]
          · rw [Bool.not_eq_true] at hb
            have hcur : verCmp (pv cur.1) (pv v) ≠ .gt := by
              refine hstep.1 cur.1 cur.2 ?_
              simp [boundUpd, hb]
            have hle : verCmp (pv c2.ver) (pv cur.1) ≠ .gt :=
              beq_ordering_ne hb
            exact verCmp_trans_ne_gt hle hcur
      · exact hstep.2 c2 hc3

theorem effBound_max_le (cs : List Clause) :
    ∀ (init : Option (String × Op)) (v : String) (o : Op),
      effBound maxBetter init cs = some (v, o) →
      (∀ w q, init = some (w, q) → verCmp (pv v) (pv w) ≠ .gt)
      ∧ (∀ c ∈ cs, verCmp (pv v) (pv c.ver) ≠ .gt) := by
  induction cs with
  | nil =>
    intro init v o h
    refine ⟨?_, by simp⟩
    intro w q hw
    rw [hw] at h
    injection h with h2
    rw [show w = v from congrArg Prod.fst h2]
    rw [verCmp_refl]
    simp
  | cons c rest ih =>
    intro init v o h
    unfold effBound at h
    rw [List.foldl_cons] at h
    have hstep := ih (boundUpd maxBetter init c) v o h
    constructor
    · intro w q hw
      rw [hw] at hstep
      by_cases hb : maxBetter c.ver w = true
      · have hc : verCmp (pv v) (pv c.ver) ≠ .gt := by
          refine hstep.1 c.ver c.op ?_
          simp [boundUpd, hb]
        have hw_gt : verCmp (pv c.ver) (pv w) ≠ .gt := by
          have hlt : verCmp (pv c.ver) (pv w) = .lt := beq_ordering_eq hb
          rw [hlt]
          simp
        exact verCmp_trans_ne_gt hc hw_gt
      · rw [Bool.not_eq_true] at hb
        refine hstep.1 w q ?_
        simp [boundUpd, hb]
    · intro c2 hc2
      rcases List.mem_cons.mp hc2 with rfl | hc3
      · cases hinit : init with
        | none =>
          rw [hinit] at hstep
          refine hstep.1 c2.ver c2.op ?_
          simp [boundUpd]
        | some cur =>
          rw [hinit] at hstep
          by_cases hb : maxBetter c2.ver cur.1 = true
          · refine hstep.1 c2.ver c2.op ?_
            simp [boundUpd, hb]
          · rw [Bool.not_eq_true] at hb
            have hcur : verCmp (pv v) (pv cur.1) ≠ .gt := by
              refine hstep.1 cur.1 cur.2 ?_
              simp [boundUpd, hb]
            have hle : verCmp (pv cur.1) (pv c2.ver) ≠ .gt := by
              intro hgt
              have hlt : verCmp (pv c2.ver) (pv cur.1) = .lt := by
                rw [verCmp_swap, hgt]
                rfl
              unfold maxBetter vLTb at hb
              rw [hlt] at hb
              exact absurd hb (by decide)
            exact verCmp_trans_ne_gt hcur hle
      · exact hstep.2 c2 hc3

/-- C4 (counterexample): against the claim's tie rule, an owner issuing
`>=1.0` and then `>1.0` gets effective lower bound `("1.0", >=)` — the
first clause at the tied value wins, the exclusive `>` is NOT preferred —
and consequently the group with another owner's `<=1.0`, a conflict under
the claim's semantics, is not reported. -/
theorem c4_counterexample :
    computeMinVersions
        [⟨"libx", [⟨.ge, "1.0"⟩], "libx>=1.0", "A"⟩, ⟨"libx", [⟨.gt, "1.0"⟩], "libx>1.0", "A"⟩]
      = [("A", "1.0", Op.ge)]
    ∧ detect_conflicts (scan_plugins emptyResolver
        [("A", ["libx>=1.0", "libx>1.0"]), ("B", ["libx<=1.0"])]).1.dependency_requirements
      = [] := ⟨rfl, rfl⟩

/-- C4 (amended): for every owner in a group, the effective lower (upper)
bound used by `detect_conflicts` is the fold of that owner's `>`/`>=`/`==`
(`<`/`<=`/`==`) clauses in scan order, replacing the stored clause only on a
strictly greater (strictly smaller) version value — so the stored version is
a maximum (minimum) of the owner's clause versions, but on a tie of version
value the earliest clause's operator is kept, with no preference for the
exclusive operator. -/
theorem c4_effective_bounds :
    (∀ (reqs : List DependencyRequirement) (p : String),
      assocFind p (computeMinVersions reqs)
        = effBound minBetter none (ownerSideClauses isLowerOp p reqs))
    ∧ (∀ (reqs : List DependencyRequirement) (p : String),
      assocFind p (computeMaxVersions reqs)
        = effBound maxBetter none (ownerSideClauses isUpperOp p reqs))
    ∧ (∀ (reqs : List DependencyRequirement) (p : String),
      Option.all (fun vo => (ownerSideClauses isLowerOp p reqs).all
          fun c => ! vGTb (pv c.ver) (pv vo.1))
        (assocFind p (computeMinVersions reqs)) = true)
    ∧ (∀ (reqs : List DependencyRequirement) (p : String),
      Option.all (fun vo => (ownerSideClauses isUpperOp p reqs).all
          fun c => ! vLTb (pv c.ver) (pv vo.1))
        (assocFind p (computeMaxVersions reqs)) = true) := by
  have hmin : ∀ (reqs : List DependencyRequirement) (p : String),
      assocFind p (computeMinVersions reqs)
        = effBound minBetter none (ownerSideClauses isLowerOp p reqs) :=
    fun reqs p => collectBounds_find isLowerOp minBetter p reqs
  have hmax : ∀ (reqs : List DependencyRequirement) (p : String),
      assocFind p (computeMaxVersions reqs)
        = effBound maxBetter none (ownerSideClauses isUpperOp p reqs) :=
    fun reqs p => collectBounds_find isUpperOp maxBetter p reqs
  refine ⟨hmin, hmax, ?_, ?_⟩
  · intro reqs p
    rw [hmin reqs p]
    cases h : effBound minBetter none (ownerSideClauses isLowerOp p reqs) with
    | none => rfl
    | some vo =>
      obtain ⟨v, o⟩ := vo
      simp only [Option.all_some]
      rw [List.all_eq_true]
      intro c hc
      have := (effBound_min_le (ownerSideClauses isLowerOp p reqs) none v o h).2 c hc
      unfold vGTb
      cases hx : verCmp (pv c.ver) (pv v) with
      | lt => rfl
      | eq => rfl
      | gt => exact absurd hx this
  · intro reqs p
    rw [hmax reqs p]
    cases h : effBound maxBetter none (ownerSideClauses isUpperOp p reqs) with
    | none => rfl
    | some vo =>
      obtain ⟨v, o⟩ := vo
      simp only [Option.all_some]
      rw [List.all_eq_true]
      intro c hc
      have h2 := (effBound_max_le (ownerSideClauses isUpperOp p reqs) none v o h).2 c hc
      unfold vLTb
      cases hx : verCmp (pv c.ver) (pv v) with
      | lt =>
        exfalso
        apply h2
        rw [verCmp_swap, hx]
        rfl
      | eq => rfl
      | gt => rfl

theorem mem_of_contains_pairs {l : List (String × String)} {x : String × String}
    (h : l.contains x = true) : x ∈ l :=
  List.mem_of_elem_eq_true h

theorem processPair_mem_mono (reqs : List DependencyRequirement)
    (pm px : String × String × Op) (st : Bool × List (String × String))
    {x : String × String} (h : x ∈ st.2) : x ∈ (processPair reqs pm px st).2 := by
  unfold processPair
  by_cases hb : pairBad pm.2 px.2 = true
  · simp only [hb, if_true]
    split
    · exact List.mem_append_left _ h
    · exact List.mem_append_left _ (List.mem_append_left _ h)
  · rw [Bool.not_eq_true] at hb
    simp only [hb, Bool.false_eq_true, if_false]
    exact h

theorem processPair_mem_hit (reqs : List DependencyRequirement)
    (pm px : String × String × Op) (st : Bool × List (String × String))
    (hb : pairBad pm.2 px.2 = true) :
    (pm.1, lastSpecStr reqs pm.1 (opStr pm.2.2 ++ pm.2.1)) ∈ (processPair reqs pm px st).2
    ∧ (px.1, lastSpecStr reqs px.1 (opStr px.2.2 ++ px.2.1)) ∈ (processPair reqs pm px st).2 := by
  unfold processPair
  simp only [hb, if_true]
  constructor
  · split
    · exact List.mem_append_right _ (by simp)
    · exact List.mem_append_left _ (List.mem_append_right _ (by simp))
  · split
    · next hc => exact mem_of_contains_pairs hc
    · exact List.mem_append_right _ (by simp)

theorem innerFold_mem_mono (reqs : List DependencyRequirement) (pm : String × String × Op)
    (maxVs : List (String × String × Op)) {x : String × String} :
    ∀ st : Bool × List (String × String), x ∈ st.2 →
      x ∈ (maxVs.foldl (fun st2 px2 => processPair reqs pm px2 st2) st).2 := by
  induction maxVs with
  | nil => intro st h; exact h
  | cons q t ih =>
    intro st h
    rw [List.foldl_cons]
    exact ih _ (processPair_mem_mono reqs pm q st h)

theorem innerFold_mem_hit (reqs : List DependencyRequirement) (pm : String × String × Op)
    (maxVs : List (String × String × Op)) (px : String × String × Op)
    (hmem : px ∈ maxVs) (hb : pairBad pm.2 px.2 = true) :
    ∀ st : Bool × List (String × String),
      (pm.1, lastSpecStr reqs pm.1 (opStr pm.2.2 ++ pm.2.1))
          ∈ (maxVs.foldl (fun st2 px2 => processPair reqs pm px2 st2) st).2
      ∧ (px.1, lastSpecStr reqs px.1 (opStr px.2.2 ++ px.2.1))
          ∈ (maxVs.foldl (fun st2 px2 => processPair reqs pm px2 st2) st).2 := by
  induction maxVs with
  | nil => exact absurd hmem (List.not_mem_nil _)
  | cons q t ih =>
    intro st
    rw [List.foldl_cons]
    rcases List.mem_cons.mp hmem with rfl | hmem2
    · have hh := processPair_mem_hit reqs pm px st hb
      exact ⟨innerFold_mem_mono reqs pm t _ hh.1, innerFold_mem_mono reqs pm t _ hh.2⟩
    · exact ih hmem2 (processPair reqs pm q st)

theorem outerFold_mem_mono (reqs : List DependencyRequirement)
    (minVs maxVs : List (String × String × Op)) {x : String × String} :
    ∀ st : Bool × List (String × String), x ∈ st.2 →
      x ∈ (minVs.foldl
        (fun st pm => maxVs.foldl (fun st2 px2 => processPair reqs pm px2 st2) st) st).2 := by
  induction minVs with
  | nil => intro st h; exact h
  | cons q t ih =>
    intro st h
    rw [List.foldl_cons]
    exact ih _ (innerFold_mem_mono reqs q maxVs st h)

theorem buildConflictList_mem_hit (reqs : List DependencyRequirement)
    (minVs maxVs : List (String × String × Op)) (pm px : String × String × Op)
    (hpm : pm ∈ minVs) (hpx : px ∈ maxVs) (hb : pairBad pm.2 px.2 = true) :
    (pm.1, lastSpecStr reqs pm.1 (opStr pm.2.2 ++ pm.2.1)) ∈ (buildConflictList reqs minVs maxVs).2
    ∧ (px.1, lastSpecStr reqs px.1 (opStr px.2.2 ++ px.2.1))
        ∈ (buildConflictList reqs minVs maxVs).2 := by
  unfold buildConflictList
  suffices h : ∀ st : Bool × List (String × String),
      (pm.1, lastSpecStr reqs pm.1 (opStr pm.2.2 ++ pm.2.1))
          ∈ (minVs.foldl
            (fun st pm2 => maxVs.foldl (fun st2 px2 => processPair reqs pm2 px2 st2) st) st).2
      ∧ (px.1, lastSpecStr reqs px.1 (opStr px.2.2 ++ px.2.1))
          ∈ (minVs.foldl
            (fun st pm2 => maxVs.foldl (fun st2 px2 => processPair reqs pm2 px2 st2) st) st).2 by
    exact h (false, [])
  induction minVs with
  | nil => exact absurd hpm (List.not_mem_nil _)
  | cons q t ih =>
    intro st
    rw [List.foldl_cons]
    rcases List.mem_cons.mp hpm with rfl | hmem2
    · have hh := innerFold_mem_hit reqs pm maxVs px hpx hb st
      exact ⟨outerFold_mem_mono reqs t maxVs _ hh.1, outerFold_mem_mono reqs t maxVs _ hh.2⟩
    · exact ih hmem2 _

theorem detect_conflicts_extract :
    ∀ (deps : List (String × List DependencyRequirement)) (name : String)
      (lst : List (String × String)),
      ConflictInfo.mk name lst ∈ detect_conflicts deps →
      ∃ reqs, (name, reqs) ∈ deps ∧ 2 ≤ reqs.length ∧
        buildConflictList reqs (computeMinVersions reqs) (computeMaxVersions reqs)
          = (true, lst) := by
  intro deps
  induction deps with
  | nil => intro name lst h; exact absurd h (List.not_mem_nil _)
  | cons g rest ih =>
    intro name lst h
    obtain ⟨gname, greqs⟩ := g
    by_cases hlen : greqs.length ≤ 1
    · rw [show detect_conflicts ((gname, greqs) :: rest) = detect_conflicts rest from by
        simp [detect_conflicts, hlen]] at h
      obtain ⟨reqs, hmem, hl, hb⟩ := ih name lst h
      exact ⟨reqs, List.mem_cons_of_mem _ hmem, hl, hb⟩
    · by_cases hf : (buildConflictList greqs (computeMinVersions greqs)
          (computeMaxVersions greqs)).1 = true
      · have hd : detect_conflicts ((gname, greqs) :: rest)
            = ⟨gname, (buildConflictList greqs (computeMinVersions greqs)
                (computeMaxVersions greqs)).2⟩ :: detect_conflicts rest := by
          simp [detect_conflicts, hlen, hf]
        rw [hd] at h
        rcases List.mem_cons.mp h with heq | hmem
        · have hn : name = gname := congrArg ConflictInfo.dependency_name heq
          have hl2 : lst = (buildConflictList greqs (computeMinVersions greqs)
              (computeMaxVersions greqs)).2 := congrArg ConflictInfo.conflicting_plugins heq
          refine ⟨greqs, ?_, by omega, ?_⟩
          · rw [hn]
            exact List.mem_cons_self _ _
          · have hp : (buildConflictList greqs (computeMinVersions greqs)
                (computeMaxVersions greqs)).1 = (true, lst).1 := hf
            have hq : (buildConflictList greqs (computeMinVersions greqs)
                (computeMaxVersions greqs)).2 = (true, lst).2 := hl2.symm
            exact Prod.ext hp hq
        · obtain ⟨reqs, hmem2, hl, hb⟩ := ih name lst hmem
          exact ⟨reqs, List.mem_cons_of_mem _ hmem2, hl, hb⟩
      · rw [Bool.not_eq_true] at hf
        rw [show detect_conflicts ((gname, greqs) :: rest) = detect_conflicts rest from by
          simp [detect_conflicts, hlen, hf]] at h
        obtain ⟨reqs, hmem, hl, hb⟩ := ih name lst h
        exact ⟨reqs, List.mem_cons_of_mem _ hmem, hl, hb⟩

/-- C5 (counterexample): with owner A declaring `libx>=3.0`, owner B
`libx<=1.0` and owner C `libx<=2.0`, the produced conflicting-plugins list
is `[(A, ">=3.0"), (B, "<=1.0"), (A, ">=3.0"), (C, "<=2.0")]`: owner A
appears twice with an identical rendered range — against the claim that each
owner appears at most once and duplicate pairs are suppressed. -/
theorem c5_counterexample :
    detect_conflicts (scan_plugins emptyResolver
        [("A", ["libx>=3.0"]), ("B", ["libx<=1.0"]),
          ("C", ["libx<=2.0"])]).1.dependency_requirements
      = [⟨"libx", [("A", ">=3.0"), ("B", "<=1.0"), ("A", ">=3.0"), ("C", "<=2.0")]⟩]
    ∧ ([("A", ">=3.0"), ("B", "<=1.0"), ("A", ">=3.0"),
        ("C", "<=2.0")] : List (String × String)).count ("A", ">=3.0") = 2 :=
  ⟨rfl, rfl⟩

/-- C5 (amended): for every Conflict produced by `detect_conflicts`, and for
every pair of per-owner effective bounds (one lower, one upper) that is
itself infeasible — which by C2 includes the pair attaining the global
bounds — both owners appear in the conflicting-plugins list, each with the
rendered specifier of its last-scanned requirement; the upper-side entry is
deduplicated before insertion but the lower-side entry is appended once per
infeasible pair, so an owner may appear several times. -/
theorem c5_responsible_owners (deps : List (String × List DependencyRequirement))
    (name : String) (lst : List (String × String))
    (h : ConflictInfo.mk name lst ∈ detect_conflicts deps) :
    ∃ reqs, (name, reqs) ∈ deps ∧ 2 ≤ reqs.length ∧
      ∀ pm ∈ computeMinVersions reqs, ∀ px ∈ computeMaxVersions reqs,
        pairBad pm.2 px.2 = true →
          (pm.1, lastSpecStr reqs pm.1 (opStr pm.2.2 ++ pm.2.1)) ∈ lst
          ∧ (px.1, lastSpecStr reqs px.1 (opStr px.2.2 ++ px.2.1)) ∈ lst := by
  obtain ⟨reqs, hmem, hlen, hb⟩ := detect_conflicts_extract deps name lst h
  refine ⟨reqs, hmem, hlen, ?_⟩
  intro pm hpm px hpx hbad
  have hh := buildConflictList_mem_hit reqs (computeMinVersions reqs)
    (computeMaxVersions reqs) pm px hpm hpx hbad
  rw [hb] at hh
  exact hh

theorem c5_responsible_owners_witness :
    ∃ reqs, ("libx", reqs) ∈
        ([("libx", [⟨"libx", [⟨.ge, "3.0"⟩], "libx>=3.0", "A"⟩,
          ⟨"libx", [⟨.le, "1.0"⟩], "libx<=1.0", "B"⟩,
          ⟨"libx", [⟨.le, "2.0"⟩], "libx<=2.0", "C"⟩])]
          : List (String × List DependencyRequirement)) ∧
      2 ≤ reqs.length ∧
      ∀ pm ∈ computeMinVersions reqs, ∀ px ∈ computeMaxVersions reqs,
        pairBad pm.2 px.2 = true →
          (pm.1, lastSpecStr reqs pm.1 (opStr pm.2.2 ++ pm.2.1))
              ∈ [("A", ">=3.0"), ("B", "<=1.0"), ("A", ">=3.0"), ("C", "<=2.0")]
          ∧ (px.1, lastSpecStr reqs px.1 (opStr px.2.2 ++ px.2.1))
              ∈ [("A", ">=3.0"), ("B", "<=1.0"), ("A", ">=3.0"), ("C", "<=2.0")] :=
  c5_responsible_owners
    [("libx", [⟨"libx", [⟨.ge, "3.0"⟩], "libx>=3.0", "A"⟩,
      ⟨"libx", [⟨.le, "1.0"⟩], "libx<=1.0", "B"⟩,
      ⟨"libx", [⟨.le, "2.0"⟩], "libx<=2.0", "C"⟩])]
    "libx" [("A", ">=3.0"), ("B", "<=1.0"), ("A", ">=3.0"), ("C", "<=2.0")]
    (by decide)

/-- Modelled from the spec (section 3): the normalized string rendering of a
parsed Version (`str(Version)`) — the release segments as written, joined by
dots. -/
def renderVersion (segs : List Nat) : String :=
  String.intercalate "." (segs.map Nat.repr)

/-- C9 (counterexample): the versions parsed from `1.0` and `1.0.0` compare
equal, yet their normalized renderings `1.0` and `1.0.0` are different
strings — against the claim that two equal Versions render identically. -/
theorem c9_counterexample :
    parseVersionChars "1.0".data = some [1, 0]
    ∧ parseVersionChars "1.0.0".data = some [1, 0, 0]
    ∧ verCmp [1, 0] [1, 0, 0] = .eq
    ∧ renderVersion [1, 0] ≠ renderVersion [1, 0, 0] := by
  refine ⟨rfl, rfl, rfl, ?_⟩
  decide

/-- C9 (amended): comparison of parsed Versions is total and consistent — it
is reflexive, swapping the arguments swaps the outcome, the non-strict order
is transitive, equality is exactly mutual non-strict order, and appending
trailing zero segments yields an equal version (missing trailing segments
are treated as zero) — but two equal Versions need not render identically. -/
theorem c9_version_order :
    (∀ a : List Nat, verCmp a a = .eq)
    ∧ (∀ a b : List Nat, verCmp b a = (verCmp a b).swap)
    ∧ (∀ a b c : List Nat, verCmp a b ≠ .gt → verCmp b c ≠ .gt → verCmp a c ≠ .gt)
    ∧ (∀ (a : List Nat) (n : Nat), verCmp a (a ++ List.replicate n 0) = .eq)
    ∧ (∀ a b : List Nat, verCmp a b = .eq ↔ (verCmp a b ≠ .gt ∧ verCmp b a ≠ .gt)) := by
  refine ⟨verCmp_refl, verCmp_swap, fun _ _ _ h1 h2 => verCmp_trans_ne_gt h1 h2, ?_,
    verCmp_eq_iff⟩
  intro a n
  induction a with
  | nil =>
    rw [List.nil_append]
    have hz : ∀ m : Nat, isZeros (List.replicate m 0) = true := by
      intro m
      induction m with
      | zero => rfl
      | succ k ih => simp [List.replicate_succ, isZeros, ih]
    cases n with
    | zero => rfl
    | succ k =>
      rw [List.replicate_succ]
      simp only [verCmp]
      simp [isZeros, hz k]
  | cons x xs ih =>
    rw [List.cons_append]
    simp only [verCmp, Nat.lt_irrefl, if_false]
    exact ih

theorem c9_version_order_witness : verCmp [1, 0] [2] ≠ .gt :=
  c9_version_order.2.2.1 [1, 0] [1, 5] [2] (by decide) (by decide)

/-- C8: `check_conflicts` constructs a fresh `DependencyResolver` on every
run (line 446), so its result does not depend on whatever state a previous
run left behind: rebuilding from the same unchanged manifest set produces
the identical requirement index — no accumulation across runs — and
re-running the check produces the identical Conflict list, with the same
content and the same order. -/
theorem c8_scan_idempotent (prior1 prior2 : ResolverState)
    (ms : List (String × List String)) :
    check_conflicts prior1 ms = check_conflicts prior2 ms
    ∧ (check_conflicts prior1 ms).1.dependency_requirements
        = (scan_plugins emptyResolver ms).1.dependency_requirements
    ∧ (check_conflicts prior1 ms).2
        = detect_conflicts (scan_plugins emptyResolver ms).1.dependency_requirements :=
  ⟨rfl, rfl, rfl⟩

theorem processLines_eq (oname over newFull : String) (lines : List String) :
    processLines oname over newFull lines
      = (lines.map fun l => (replLine oname over newFull l).1,
         lines.any fun l => (replLine oname over newFull l).2) := by
  induction lines with
  | nil => rfl
  | cons l ls ih => simp only [processLines, List.map_cons, List.any_cons, ih]

theorem repl_foldl (oname over newFull : String) (ms : List (String × List String)) :
    ∀ acc : List (String × List String) × Nat,
      (ms.foldl (fun acc m =>
        let r := processLines oname over newFull m.2
        if r.2 then (acc.1 ++ [(m.1, r.1)], acc.2 + 1) else (acc.1 ++ [m], acc.2)) acc)
      = (acc.1 ++ ms.map (fun m =>
            if (processLines oname over newFull m.2).2
            then (m.1, (processLines oname over newFull m.2).1) else m),
         acc.2 + ms.countP (fun m => (processLines oname over newFull m.2).2)) := by
  induction ms with
  | nil => intro acc; simp
  | cons m rest ih =>
    intro acc
    rw [List.foldl_cons, List.map_cons, List.countP_cons]
    by_cases h : (processLines oname over newFull m.2).2 = true
    · simp only [h, if_true]
      rw [ih]
      simp [h, List.append_assoc]
      omega
    · rw [Bool.not_eq_true] at h
      simp only [h, Bool.false_eq_true, if_false]
      rw [ih]
      simp [h, List.append_assoc]

theorem replace_c6_unfold (ms : List (String × List String)) :
    replace_dependency "libX>=2.0" "libX==2.5.1" ms
      = ms.foldl (fun acc m =>
          let r := processLines "libx" ">=2.0" "libX==2.5.1" m.2
          if r.2 then (acc.1 ++ [(m.1, r.1)], acc.2 + 1) else (acc.1 ++ [m], acc.2))
        ([], 0) := rfl

/-- C6: replacing old spec `libX>=2.0` by `libX==2.5.1` rewrites a manifest
exactly when some line of it parses to name `libx` with rendered range
`>=2.0`; each such line becomes `libX==2.5.1` (plus newline), whose
re-parsed Requirement has specifier exactly `==2.5.1`; blank, comment,
unparseable and non-matching lines pass through unchanged; a manifest with
no matching line is returned as the very same line list (never rewritten);
and the returned number is the count of manifests actually modified. -/
theorem c6_replace_roundtrip (ms : List (String × List String)) :
    (replace_dependency "libX>=2.0" "libX==2.5.1" ms).1
      = ms.map (fun m =>
          if (processLines "libx" ">=2.0" "libX==2.5.1" m.2).2
          then (m.1, (processLines "libx" ">=2.0" "libX==2.5.1" m.2).1) else m)
    ∧ (replace_dependency "libX>=2.0" "libX==2.5.1" ms).2
        = ms.countP (fun m => (processLines "libx" ">=2.0" "libX==2.5.1" m.2).2)
    ∧ (∀ lines : List String, processLines "libx" ">=2.0" "libX==2.5.1" lines
        = (lines.map fun l => (replLine "libx" ">=2.0" "libX==2.5.1" l).1,
           lines.any fun l => (replLine "libx" ">=2.0" "libX==2.5.1" l).2))
    ∧ (∀ line : String, replLine "libx" ">=2.0" "libX==2.5.1" line
        = if (match parseLine (trimChars line.data) with
              | some r => lowerStr r.name == "libx" && renderSpec r.clauses == ">=2.0"
              | none => false)
          then ("libX==2.5.1\n", true) else (line, false))
    ∧ parseLine (trimChars "libX==2.5.1\n".data) = some ⟨"libX", [⟨Op.eq, "2.5.1"⟩]⟩
    ∧ renderSpec [⟨Op.eq, "2.5.1"⟩] = "==2.5.1"
    ∧ replace_dependency "libX>=2.0" "libX==2.5.1"
        [("p1", ["libX>=2.0\n"]), ("p2", ["libX>=3.0\n"])]
        = ([("p1", ["libX==2.5.1\n"]), ("p2", ["libX>=3.0\n"])], 1) := by
  refine ⟨?_, ?_, processLines_eq "libx" ">=2.0" "libX==2.5.1", ?_, rfl, rfl, rfl⟩
  · rw [replace_c6_unfold, repl_foldl]
    simp
  · rw [replace_c6_unfold, repl_foldl]
    simp
  · intro line
    unfold replLine
    by_cases hg : ((trimChars line.data).isEmpty || (trimChars line.data).headD ' ' == '#')
        = true
    · rw [if_pos hg]
      have hnone : parseLine (trimChars line.data) = none := by
        rcases Bool.or_eq_true_iff.mp hg with he | hh
        · have h2 : trimChars line.data = [] := by
            cases hv : trimChars line.data with
            | nil => rfl
            | cons c t => rw [hv] at he; exact absurd he (by simp)
          rw [h2]
          rfl
        · cases hv : trimChars line.data with
          | nil => rfl
          | cons c t =>
            rw [hv] at hh
            have hc : c = '#' := by simpa using hh
            subst hc
            rfl
      rw [hnone]
      rfl
    · rw [Bool.not_eq_true] at hg
      have hng : ¬ (((trimChars line.data).isEmpty
          || (trimChars line.data).headD ' ' == '#') = true) := by
        rw [hg]
        simp
      rw [if_neg hng]
      cases hp : parseLine (trimChars line.data) with
      | none => rfl
      | some r =>
        have he : ((">=2.0" : String) == "") = false := by decide
        simp only [he, Bool.false_or]
        split <;> rfl

theorem parseLine_not_blank {cs : List Char} {r : ParsedReq} (h : parseLine cs = some r) :
    cs.isEmpty = false ∧ (cs.headD ' ' == '#') = false := by
  cases cs with
  | nil => exact absurd h (by simp [parseLine])
  | cons c t =>
    refine ⟨rfl, ?_⟩
    by_cases hc : c = '#'
    · subst hc
      have hn : parseLine ('#' :: t) = none := by
        unfold parseLine
        rw [List.takeWhile_cons]
        simp [isNameChar]
      rw [hn] at h
      exact absurd h (by simp)
    · simpa using hc

theorem scan_plugins_warn_acc (ms : List (String × List String)) :
    ∀ (st : ResolverState) (w : List (String × Nat)),
      ms.foldl (fun acc m =>
          let r := parse_requirements acc.1 m.1 m.2
          (r.1, acc.2 ++ r.2)) (st, w)
      = ((ms.foldl (fun acc m =>
            let r := parse_requirements acc.1 m.1 m.2
            (r.1, acc.2 ++ r.2)) (st, [])).1,
         w ++ (ms.foldl (fun acc m =>
            let r := parse_requirements acc.1 m.1 m.2
            (r.1, acc.2 ++ r.2)) (st, [])).2) := by
  induction ms with
  | nil => intro st w; simp
  | cons m rest ih =>
    intro st w
    rw [List.foldl_cons, List.foldl_cons]
    rw [ih ((parse_requirements st m.1 m.2).1) (w ++ (parse_requirements st m.1 m.2).2)]
    rw [ih ((parse_requirements st m.1 m.2).1) ([] ++ (parse_requirements st m.1 m.2).2)]
    simp [List.append_assoc]

/-- C7: a manifest holding one unparsable line followed by one valid line
yields exactly one Requirement — the valid one, stored (lowercased name,
clauses, stripped text, owner) under the plugin in `all_requirements` — plus
exactly one recorded warning naming the owner and the failing line's number
(line 1); the failure is not fatal: scanning a larger manifest set simply
continues on the remaining manifests from the state this manifest produced,
with the warning prepended to the later warnings. -/
theorem c7_malformed_line (st : ResolverState) (plugin bad good : String) (r : ParsedReq)
    (h1 : parseLine (trimChars bad.data) = none)
    (h2 : (trimChars bad.data).isEmpty = false)
    (h3 : ((trimChars bad.data).headD ' ' == '#') = false)
    (h4 : parseLine (trimChars good.data) = some r) :
    (parse_requirements st plugin [bad, good]).2 = [(plugin, 1)]
    ∧ assocFind plugin (parse_requirements st plugin [bad, good]).1.all_requirements
        = some [⟨lowerStr r.name, r.clauses, String.mk (trimChars good.data), plugin⟩]
    ∧ ∀ ms : List (String × List String),
        scan_plugins st ((plugin, [bad, good]) :: ms)
          = ((scan_plugins (parse_requirements st plugin [bad, good]).1 ms).1,
             (plugin, 1) :: (scan_plugins (parse_requirements st plugin [bad, good]).1 ms).2) := by
  obtain ⟨hg1, hg2⟩ := parseLine_not_blank h4
  have hloop : parseLoop plugin 1 st.dependency_requirements [bad, good]
      = ([⟨lowerStr r.name, r.clauses, String.mk (trimChars good.data), plugin⟩],
         addToIndex st.dependency_requirements
           ⟨lowerStr r.name, r.clauses, String.mk (trimChars good.data), plugin⟩,
         [(plugin, 1)]) := by
    simp only [parseLoop, h1, h2, h3, h4, hg1, hg2, Bool.or_self, Bool.false_eq_true,
      if_false]
  have hpr : parse_requirements st plugin [bad, good]
      = (⟨assocSet plugin [⟨lowerStr r.name, r.clauses, String.mk (trimChars good.data),
            plugin⟩] st.all_requirements,
          addToIndex st.dependency_requirements
            ⟨lowerStr r.name, r.clauses, String.mk (trimChars good.data), plugin⟩⟩,
         [(plugin, 1)]) := by
    unfold parse_requirements
    rw [hloop]
  refine ⟨by rw [hpr], ?_, ?_⟩
  · rw [hpr]
    exact assocFind_assocSet_self plugin _ st.all_requirements
  · intro ms
    unfold scan_plugins
    rw [List.foldl_cons]
    simp only [hpr, List.nil_append]
    rw [scan_plugins_warn_acc ms]
    simp

theorem c7_malformed_line_witness :
    (parse_requirements emptyResolver "A" ["???", "libx>=1.0"]).2 = [("A", 1)]
    ∧ assocFind "A"
        (parse_requirements emptyResolver "A" ["???", "libx>=1.0"]).1.all_requirements
      = some [⟨"libx", [⟨Op.ge, "1.0"⟩], "libx>=1.0", "A"⟩] := by
  have h := c7_malformed_line emptyResolver "A" "???" "libx>=1.0"
    ⟨"libx", [⟨Op.ge, "1.0"⟩]⟩ (by decide) (by decide) (by decide) (by decide)
  exact ⟨h.1, h.2.1⟩

theorem lowerChar_eq_bang {c : Char} (h : lowerChar c = '!') : c = '!' := by
  unfold lowerChar at h
  split at h <;> first | exact h | exact absurd h (by decide)

theorem parseLine_name_chars {cs : List Char} {r : ParsedReq} (h : parseLine cs = some r) :
    ∀ c ∈ r.name.data, isNameChar c = true := by
  unfold parseLine at h
  by_cases he : (cs.takeWhile isNameChar).isEmpty = true
  · rw [if_pos he] at h
    exact absurd h (by simp)
  · rw [Bool.not_eq_true] at he
    rw [if_neg (by rw [he]; simp)] at h
    by_cases hr : (cs.dropWhile isNameChar).isEmpty = true
    · rw [if_pos hr] at h
      injection h with h2
      rw [← h2]
      intro c hc
      exact List.mem_takeWhile_imp hc
    · rw [Bool.not_eq_true] at hr
      rw [if_neg (by rw [hr]; simp)] at h
      cases hm : (splitOnChar ',' (cs.dropWhile isNameChar)).mapM parseClauseChars with
      | none =>
        rw [hm] at h
        exact absurd h (by simp)
      | some cls =>
        rw [hm] at h
        simp only [Option.map_some'] at h
        injection h with h2
        rw [← h2]
        intro c hc
        exact List.mem_takeWhile_imp hc

theorem lowerStr_valid_ne_bang {s : String}
    (h : ∀ c ∈ s.data, isNameChar c = true) : lowerStr s ≠ "libx!=1.0" := by
  intro heq
  have hmem : '!' ∈ s.data.map lowerChar := by
    have h2 : (lowerStr s).data = s.data.map lowerChar := rfl
    rw [← h2, heq]
    decide
  obtain ⟨c, hc, hcl⟩ := List.mem_map.mp hmem
  have hcb : c = '!' := lowerChar_eq_bang hcl
  subst hcb
  exact absurd (h '!' hc) (by decide)

/-- C10: the replace operation recognizes a range in the old-spec text only
by scanning for the substrings `==`, `>=`, `<=`, `>`, `<`, `~=`;
`libx!=1.0` contains none of them, so it is treated as a plain (lowercased)
dependency name — which no parsed requirement name can equal, since parsed
names consist of name characters and never contain `!` — hence for every
manifest set and any new-spec text the call modifies no manifest and
returns 0. -/
theorem c10_ne_oldspec (new_dep : String) (ms : List (String × List String)) :
    containsAnyOp "libx!=1.0" = false
    ∧ replace_dependency "libx!=1.0" new_dep ms = (ms, 0) := by
  refine ⟨rfl, ?_⟩
  have hunfold : replace_dependency "libx!=1.0" new_dep ms
      = (match (if containsAnyOp new_dep then (parseLine new_dep.data).map fun _ => new_dep
                else some new_dep : Option String) with
         | none => (ms, 0)
         | some newFull =>
           ms.foldl (fun acc m =>
             let r := processLines "libx!=1.0" "" newFull m.2
             if r.2 then (acc.1 ++ [(m.1, r.1)], acc.2 + 1)
             else (acc.1 ++ [m], acc.2)) ([], 0)) := rfl
  rw [hunfold]
  cases hn : (if containsAnyOp new_dep then (parseLine new_dep.data).map fun _ => new_dep
      else some new_dep : Option String) with
  | none => rfl
  | some newFull =>
    have hline : ∀ line : String, replLine "libx!=1.0" "" newFull line = (line, false) := by
      intro line
      simp only [replLine]
      split
      · rfl
      · cases hp : parseLine (trimChars line.data) with
        | none => rfl
        | some r =>
          have hne : (lowerStr r.name == "libx!=1.0") = false := by
            have hv := lowerStr_valid_ne_bang (parseLine_name_chars hp)
            simp [hv]
          simp [hne]
    have hpl : ∀ lines : List String,
        processLines "libx!=1.0" "" newFull lines = (lines, false) := by
      intro lines
      induction lines with
      | nil => rfl
      | cons l t ih => simp [processLines, hline l, ih]
    dsimp only
    rw [repl_foldl "libx!=1.0" "" newFull ms ([], 0)]
    have hmap : ms.map (fun m =>
        if (processLines "libx!=1.0" "" newFull m.2).2
        then (m.1, (processLines "libx!=1.0" "" newFull m.2).1) else m) = ms := by
      induction ms with
      | nil => rfl
      | cons m t ih => simp [hpl, ih]
    have hcount : ms.countP (fun m => (processLines "libx!=1.0" "" newFull m.2).2) = 0 := by
      induction ms with
      | nil => rfl
      | cons m t ih => simp [List.countP_cons, hpl, ih]
    rw [hmap, hcount]
    rfl
